import Mathlib

/-!
Verification of the SilentSlides text-processing pipeline.

Shallow embedding of `src/text_processor.py` (class `TextProcessor`) and the
constants of `config.py`.  Strings are modelled as `List Char` (ASCII fragment
of Python's text model: the regex classes `\s` and `\w` are modelled by their
ASCII parts, which is what every input considered here uses).  The external
numeric components — the SentenceTransformer embedding model and the
HDBSCAN/KMeans clusterers — are modelled as parameters: the clusterer's output
is an arbitrary integer label list (one label per sentence), and the
per-cluster centroid cosine-similarity scores are an arbitrary rational score
list, so every theorem quantifies over all possible behaviours of those
external components.
-/

namespace SilentSlides

/-- Python regex `\s` (ASCII part): space, tab, newline, carriage return,
vertical tab, form feed. -/
def isSpaceB (c : Char) : Bool :=
  c = ' ' || c = '\t' || c = '\n' || c = '\r' || c = '\x0b' || c = '\x0c'

/-- Python regex `\w` (ASCII part): letters, digits and underscore. -/
def isWordB (c : Char) : Bool :=
  c.isAlphanum || c = '_'

/-- The sentence-splitting class `[.!?]` of `split_sentences` (line 49). -/
def isSplitB (c : Char) : Bool :=
  c = '.' || c = '!' || c = '?'

/-- The characters stripped from the end of a title by
`sentence.rstrip('.,!?')` (line 137). -/
def isTitlePunctB (c : Char) : Bool :=
  c = '.' || c = ',' || c = '!' || c = '?'

/-- The character class kept by `re.sub(r'[^\w\s.,!?-]', '', text)`
(line 43 of `clean_text`). -/
def keepB (c : Char) : Bool :=
  isWordB c || isSpaceB c || c = '.' || c = ',' || c = '!' || c = '?' || c = '-'

/-- Helper for `collapseWS`: the Boolean records whether the previous character
belonged to a whitespace run that has already emitted its single `' '`. -/
def collapseAux : Bool → List Char → List Char
  | _, [] => []
  | prevSpace, c :: cs =>
    if isSpaceB c then
      if prevSpace then collapseAux true cs
      else ' ' :: collapseAux true cs
    else c :: collapseAux false cs

/-- `re.sub(r'\s+', ' ', text)` (line 41): every maximal run of whitespace is
replaced by a single space. -/
def collapseWS (l : List Char) : List Char :=
  collapseAux false l

/-- `re.sub(r'[^\w\s.,!?-]', '', text)` (line 43). -/
def removeSpecial (l : List Char) : List Char :=
  l.filter keepB

/-- Python `str.strip()`: drop whitespace from both ends. -/
def stripList (l : List Char) : List Char :=
  ((l.dropWhile isSpaceB).reverse.dropWhile isSpaceB).reverse

/-- `TextProcessor.clean_text` (lines 38-44). -/
def clean_text (l : List Char) : List Char :=
  stripList (removeSpecial (collapseWS l))

/-- Fuel-indexed helper for `splitRuns`; the fuel (instantiated with the
input's length, which strictly bounds the recursion depth) only makes the
recursion structural so that concrete inputs evaluate inside the kernel. -/
def splitRunsF : Nat → List Char → List (List Char)
  | 0, l => [l.takeWhile (fun c => !(isSplitB c))]
  | fuel + 1, l =>
    match l.dropWhile (fun c => !(isSplitB c)) with
    | [] => [l.takeWhile (fun c => !(isSplitB c))]
    | _ :: rs =>
      l.takeWhile (fun c => !(isSplitB c)) :: splitRunsF fuel (rs.dropWhile isSplitB)

/-- `re.split(r'[.!?]+', text)` (line 49): fragments between maximal runs of
`. ! ?`, including empty fragments at the ends and nowhere else. -/
def splitRuns (l : List Char) : List (List Char) :=
  splitRunsF l.length l

/-- Fuel-indexed helper for `pySplit` (same device as `splitRunsF`). -/
def pySplitF : Nat → List Char → List (List Char)
  | 0, _ => []
  | fuel + 1, l =>
    match l.dropWhile isSpaceB with
    | [] => []
    | c :: cs =>
      (c :: cs).takeWhile (fun x => !(isSpaceB x)) ::
        pySplitF fuel ((c :: cs).dropWhile (fun x => !(isSpaceB x)))

/-- Python `str.split()` with no argument (line 53 and line 135): maximal runs
of non-whitespace characters, with empty tokens never produced. -/
def pySplit (l : List Char) : List (List Char) :=
  pySplitF l.length l

/-- `TextProcessor.split_sentences` (lines 46-54): split on runs of `. ! ?`,
strip each fragment, drop empty fragments, drop fragments with fewer than
3 whitespace-delimited tokens. -/
def split_sentences (t : List Char) : List (List Char) :=
  let sentences := (splitRuns t).map stripList
  let sentences := sentences.filter (fun s => !s.isEmpty)
  sentences.filter (fun s => 3 ≤ (pySplit s).length)

/-- The Sentence Segmenter as the claim states it: collapse whitespace runs,
remove characters outside word characters, whitespace and `. , ! ? -`, split
on runs of `. ! ?`, trim each fragment, drop fragments with fewer than 3
whitespace-delimited tokens.  This definition follows the specification's
words (spec section 4.1); the code composition is
`split_sentences (clean_text s)`, and the two are proved equal below. -/
def segmentSpec (s : List Char) : List (List Char) :=
  ((splitRuns (removeSpecial (collapseWS s))).map stripList).filter
    (fun f => 3 ≤ (pySplit f).length)

/-! ## Configuration constants (`config.py`, lines 69-75) -/

def MAX_TOPICS : Nat := 10

def MIN_CLUSTER_SIZE : Nat := 2

def MAX_BULLETS_PER_SLIDE : Nat := 5

/-- The `random_state=42` argument of the KMeans fallback
(`text_processor.py` line 97). -/
def kmeansRandomState : Nat := 42

/-! ## Cluster Engine (`cluster_sentences`, lines 63-109)

The HDBSCAN / KMeans call itself is external (scikit-learn); its output, one
integer label per sentence with `-1` marking HDBSCAN noise, is taken as a
parameter `labels`.  The grouping loop of lines 100-109 is embedded exactly:
an insertion-ordered association list plays the role of the Python dict. -/

/-- Python `max(labels)` over a non-empty list (line 104); the `[]` case is
never reached because the loop body only runs when `labels` is non-empty. -/
def maxLabel : List Int → Int
  | [] => 0
  | x :: xs => xs.foldl max x

/-- The label rewrite of lines 103-104: noise (`-1`) is redirected to
`max(labels) + 1`. -/
def effLabel (labels : List Int) (lab : Int) : Int :=
  if lab = -1 then maxLabel labels + 1 else lab

/-- Appending one sentence to the cluster keyed `k` of an insertion-ordered
association list, creating the key at the end if absent (lines 105-107 with
dict insertion-order semantics). -/
def addToCluster (m : List (Int × List (List Char))) (k : Int) (s : List Char) :
    List (Int × List (List Char)) :=
  match m with
  | [] => [(k, [s])]
  | (k', l) :: rest =>
    if k' = k then (k, l ++ [s]) :: rest else (k', l) :: addToCluster rest k s

/-- The grouping loop of lines 100-109. -/
def groupClusters (sentences : List (List Char)) (labels : List Int) :
    List (Int × List (List Char)) :=
  (labels.zip sentences).foldl
    (fun m p => addToCluster m (effLabel labels p.1) p.2) []

/-- `TextProcessor.cluster_sentences` (lines 63-109).  `nClusters` mirrors the
`n_clusters=None` parameter; it only feeds the external KMeans call (whose
requested `k` is embedded separately as `kmeansK`), so the grouping of the
returned `labels` does not depend on it. -/
def cluster_sentences (sentences : List (List Char)) (nClusters : Option Nat)
    (labels : List Int) : List (Int × List (List Char)) :=
  if sentences.length < 2 then [(0, sentences)]
  else groupClusters sentences labels

/-- The auto-detected cluster count of line 85:
`min(MAX_TOPICS, max(2, len(sentences) // 5))`. -/
def autoNClusters (n : Nat) : Nat :=
  min MAX_TOPICS (max 2 (n / 5))

/-- The `k` requested from the KMeans fallback (lines 84-96):
the target count, defaulted by `autoNClusters`, capped at `n`. -/
def kmeansK (n : Nat) (nClusters : Option Nat) : Nat :=
  min (nClusters.getD (autoNClusters n)) n

/-- Lookup of one cluster's sentence list in the association list returned by
`cluster_sentences` (the Python dict access `clusters[label]`). -/
def lookupVal (m : List (Int × List (List Char))) (k : Int) : List (List Char) :=
  match m with
  | [] => []
  | (k', l) :: rest => if k' = k then l else lookupVal rest k

/-! ## Topic Synthesizer (`generate_topic_title`, `_shorten_sentence`,
`rank_bullets`, lines 111-159)

Cosine similarities of a cluster's embeddings to the cluster centroid are
external real-number computations; they enter the embedding as a rational
score list `scores`, one score per sentence of the cluster. -/

/-- Python `str.rstrip('.,!?')` (line 137). -/
def rstripPunct (l : List Char) : List Char :=
  (l.reverse.dropWhile isTitlePunctB).reverse

/-- Python `' '.join(words)` (line 140). -/
def joinSpace : List (List Char) → List Char
  | [] => []
  | [w] => w
  | w :: ws => w ++ ' ' :: joinSpace ws

/-- `numpy.argmax` over a score list: index of the first maximal score
(`similarities.argmax()`, line 127). -/
def argmaxAux (best : ℚ) (bestIdx i : Nat) : List ℚ → Nat
  | [] => bestIdx
  | x :: xs => if best < x then argmaxAux x i (i + 1) xs else argmaxAux best bestIdx (i + 1) xs

/-- `numpy.argmax` of a score list (first index attaining the maximum). -/
def argmaxIdx : List ℚ → Nat
  | [] => 0
  | x :: xs => argmaxAux x 0 1 xs

/-- `TextProcessor._shorten_sentence` (lines 133-140) with its default
`max_words = 6`. -/
def shorten_sentence (sentence : List Char) (maxWords : Nat) : List Char :=
  let words := pySplit sentence
  if words.length ≤ maxWords then rstripPunct sentence
  else joinSpace (words.take maxWords) ++ ('.' :: '.' :: '.' :: [])

/-- `TextProcessor.generate_topic_title` (lines 111-131); `scores` stands for
the centroid cosine similarities of lines 123-126. -/
def generate_topic_title (sentences : List (List Char)) (scores : List ℚ) : List Char :=
  if sentences.isEmpty then ('T' :: 'o' :: 'p' :: 'i' :: 'c' :: [])
  else if sentences.length = 1 then shorten_sentence (sentences.headD []) 6
  else shorten_sentence (sentences.getD (argmaxIdx scores) []) 6

/-- Stable insertion (ascending by score) used to model `numpy.argsort` on the
centrality scores of line 157.  `numpy`'s default quicksort is deterministic
but unspecified on ties; this model fixes the deterministic tie order to
original-index order. -/
def insIdx (scores : List ℚ) (i : Nat) : List Nat → List Nat
  | [] => [i]
  | j :: js =>
    if scores.getD i 0 ≤ scores.getD j 0 then i :: j :: js else j :: insIdx scores i js

/-- `centrality_scores.argsort()` (line 157): indices `0..n-1` sorted by
ascending score. -/
def argsortAsc (scores : List ℚ) : List Nat :=
  (List.range scores.length).foldr (insIdx scores) []

/-- Python slice `l[-k:]`: the last `k` elements, or the whole list when
`k = 0` (since `l[-0:]` is `l[0:]`). -/
def lastSlice (l : List Nat) (k : Nat) : List Nat :=
  if k = 0 then l else l.drop (l.length - k)

/-- `centrality_scores.argsort()[-max_bullets:][::-1]` (line 157). -/
def rankIndices (scores : List ℚ) (maxBullets : Nat) : List Nat :=
  (lastSlice (argsortAsc scores) maxBullets).reverse

/-- `TextProcessor.rank_bullets` (lines 142-159); `scores` stands for the
centroid cosine similarities of lines 151-154. -/
def rank_bullets (sentences : List (List Char)) (scores : List ℚ)
    (maxBullets : Nat) : List (List Char) :=
  if sentences.length ≤ maxBullets then sentences
  else (rankIndices scores maxBullets).map (fun i => sentences.getD i [])

/-! ## Pipeline Orchestrator (`process_text`, lines 161-217) -/

/-- One entry of the `topics` list built in lines 203-208. -/
structure Topic where
  id : Int
  title : List Char
  bullets : List (List Char)
  sentence_count : Nat
deriving DecidableEq

/-- The dictionary returned by `process_text` (lines 178-182 and 213-217). -/
structure PipelineResult where
  topics : List Topic
  slide_count : Nat
  total_sentences : Nat
deriving DecidableEq

/-- The topic-construction loop of lines 191-208, in cluster discovery order.
`scoresFor` abstracts the per-cluster centroid cosine similarities that the
code derives from the embeddings (lines 193-201). -/
def topicsOf (clusters : List (Int × List (List Char)))
    (scoresFor : List (List Char) → List ℚ) : List Topic :=
  clusters.map (fun p =>
    { id := p.1
      title := generate_topic_title p.2 (scoresFor p.2)
      bullets := rank_bullets p.2 (scoresFor p.2) MAX_BULLETS_PER_SLIDE
      sentence_count := p.2.length })

/-- Stable descending insertion by `sentence_count`: the element being
inserted comes from later in the original list, so it is placed after every
earlier element of equal count. -/
def insertTopicDesc (t : Topic) : List Topic → List Topic
  | [] => [t]
  | u :: us =>
    if u.sentence_count ≤ t.sentence_count then t :: u :: us
    else u :: insertTopicDesc t us

/-- `topics.sort(key=lambda t: t['sentence_count'], reverse=True)` (line 211):
CPython's sort is stable, also with `reverse=True` (equal-key elements keep
their original order). -/
def sortTopics (l : List Topic) : List Topic :=
  l.foldr insertTopicDesc []

/-- `TextProcessor.process_text` (lines 161-217).  `labels` is the external
clusterer's output and `scoresFor` the external per-cluster centrality
scores; both are universally quantified in every theorem below. -/
def process_text (labels : List Int) (scoresFor : List (List Char) → List ℚ)
    (text : List Char) : PipelineResult :=
  let cleaned := clean_text text
  let sentences := split_sentences cleaned
  if sentences.isEmpty then
    { topics := [], slide_count := 0, total_sentences := 0 }
  else
    let clusters := cluster_sentences sentences none labels
    let topics := sortTopics (topicsOf clusters scoresFor)
    { topics := topics
      slide_count := topics.length + 2
      total_sentences := sentences.length }

/-! ## General lemmas about `takeWhile`, `dropWhile` and `stripList` -/

theorem dropWhile_append_sat {p : Char → Bool} {pre : List Char} (l : List Char)
    (h : ∀ c ∈ pre, p c = true) : (pre ++ l).dropWhile p = l.dropWhile p := by
  induction pre with
  | nil => rfl
  | cons c cs ih =>
    simp only [List.cons_append, List.dropWhile_cons, h c (by simp)]
    exact ih (fun x hx => h x (by simp [hx]))

theorem takeWhile_append_sat {p : Char → Bool} {pre : List Char} (l : List Char)
    (h : ∀ c ∈ pre, p c = true) : (pre ++ l).takeWhile p = pre ++ l.takeWhile p := by
  induction pre with
  | nil => rfl
  | cons c cs ih =>
    simp only [List.cons_append, List.takeWhile_cons, h c (by simp), if_true]
    rw [ih (fun x hx => h x (by simp [hx]))]

theorem dropWhile_eq_nil_of_sat {p : Char → Bool} {l : List Char}
    (h : ∀ c ∈ l, p c = true) : l.dropWhile p = [] := by
  induction l with
  | nil => rfl
  | cons c cs ih =>
    simp only [List.dropWhile_cons, h c (by simp), if_true]
    exact ih (fun x hx => h x (by simp [hx]))

theorem takeWhile_eq_self_of_sat {p : Char → Bool} {l : List Char}
    (h : ∀ c ∈ l, p c = true) : l.takeWhile p = l := by
  induction l with
  | nil => rfl
  | cons c cs ih =>
    simp only [List.takeWhile_cons, h c (by simp), if_true]
    rw [ih (fun x hx => h x (by simp [hx]))]

theorem dropWhile_idem {p : Char → Bool} (l : List Char) :
    (l.dropWhile p).dropWhile p = l.dropWhile p := by
  cases hd : l.dropWhile p with
  | nil => rfl
  | cons c cs =>
    have hne : l.dropWhile p ≠ [] := by simp [hd]
    have hc := List.head_dropWhile_not p l hne
    simp only [hd, List.head_cons] at hc
    simp [List.dropWhile_cons, hc]

theorem dropWhile_append_of_cons {p : Char → Bool} {a : List Char} {c : Char}
    {cs : List Char} (b : List Char) (h : a.dropWhile p = c :: cs) :
    (a ++ b).dropWhile p = c :: (cs ++ b) := by
  rw [List.dropWhile_append, h]
  simp

theorem takeWhile_append_of_cons {p : Char → Bool} {a : List Char} {c : Char}
    {cs : List Char} (b : List Char) (h : a.dropWhile p = c :: cs) :
    (a ++ b).takeWhile p = a.takeWhile p := by
  rw [List.takeWhile_append]
  have hlen : (a.takeWhile p).length + (a.dropWhile p).length = a.length := by
    have h0 := congrArg List.length (List.takeWhile_append_dropWhile p a)
    rw [List.length_append] at h0
    exact h0
  rw [h] at hlen
  have : (a.takeWhile p).length ≠ a.length := by
    simp only [List.length_cons] at hlen
    omega
  simp [this]

theorem mem_of_mem_stripList {c : Char} {l : List Char}
    (h : c ∈ stripList l) : c ∈ l := by
  unfold stripList at h
  rw [List.mem_reverse] at h
  have h1 := (List.dropWhile_sublist (l := (l.dropWhile isSpaceB).reverse) isSpaceB).mem h
  rw [List.mem_reverse] at h1
  exact (List.dropWhile_sublist isSpaceB).mem h1

theorem stripList_prepend_space {ws : List Char} (l : List Char)
    (h : ∀ c ∈ ws, isSpaceB c = true) : stripList (ws ++ l) = stripList l := by
  unfold stripList
  rw [dropWhile_append_sat l h]

theorem stripList_append_space {ws : List Char} (l : List Char)
    (h : ∀ c ∈ ws, isSpaceB c = true) : stripList (l ++ ws) = stripList l := by
  unfold stripList
  have hws : ∀ x ∈ ws.reverse, isSpaceB x = true :=
    fun x hx => h x (List.mem_reverse.mp hx)
  cases hd : l.dropWhile isSpaceB with
  | nil =>
    rw [List.dropWhile_append, hd]
    simp only [List.isEmpty_nil, if_true]
    rw [dropWhile_eq_nil_of_sat h]
  | cons c cs =>
    rw [dropWhile_append_of_cons ws hd]
    have h2 : List.dropWhile isSpaceB (c :: (cs ++ ws)).reverse =
        List.dropWhile isSpaceB (c :: cs).reverse := by
      have heq : (c :: (cs ++ ws)).reverse = ws.reverse ++ (c :: cs).reverse := by
        simp
      rw [heq]
      exact dropWhile_append_sat ((c :: cs).reverse) hws
    rw [h2]

/-! ## Unfolding equations for `splitRuns` and `pySplit` -/

theorem splitRunsF_irrel : ∀ (f₁ f₂ : Nat) (l : List Char),
    l.length ≤ f₁ → l.length ≤ f₂ → splitRunsF f₁ l = splitRunsF f₂ l := by
  intro f₁
  induction f₁ with
  | zero =>
    intro f₂ l h1 h2
    have hl : l = [] := List.length_eq_zero.mp (Nat.le_zero.mp h1)
    subst hl
    cases f₂ with
    | zero => rfl
    | succ f => rfl
  | succ f ih =>
    intro f₂ l h1 h2
    cases f₂ with
    | zero =>
      have hl : l = [] := List.length_eq_zero.mp (Nat.le_zero.mp h2)
      subst hl
      rfl
    | succ f₂' =>
      cases hd : l.dropWhile (fun c => !(isSplitB c)) with
      | nil => simp [splitRunsF, hd]
      | cons c rs =>
        simp only [splitRunsF, hd]
        congr 1
        have hle : (c :: rs).length ≤ l.length :=
          hd ▸ (List.dropWhile_sublist _).length_le
        simp only [List.length_cons] at hle
        have harg : ((rs.dropWhile isSplitB)).length ≤ rs.length :=
          (List.dropWhile_sublist _).length_le
        exact ih f₂' (rs.dropWhile isSplitB) (by omega) (by omega)

theorem splitRuns_eq_single {l : List Char}
    (h : l.dropWhile (fun c => !(isSplitB c)) = []) :
    splitRuns l = [l.takeWhile (fun c => !(isSplitB c))] := by
  unfold splitRuns
  cases hn : l.length with
  | zero => rfl
  | succ m => simp [splitRunsF, h]

theorem splitRuns_eq_cons {l : List Char} {c : Char} {cs : List Char}
    (h : l.dropWhile (fun c => !(isSplitB c)) = c :: cs) :
    splitRuns l = l.takeWhile (fun c => !(isSplitB c)) :: splitRuns (cs.dropWhile isSplitB) := by
  unfold splitRuns
  cases hn : l.length with
  | zero =>
    have hl : l = [] := List.length_eq_zero.mp hn
    subst hl
    simp at h
  | succ m =>
    simp only [splitRunsF, h]
    congr 1
    have hle : (c :: cs).length ≤ l.length :=
      h ▸ (List.dropWhile_sublist _).length_le
    simp only [List.length_cons] at hle
    have harg : ((cs.dropWhile isSplitB)).length ≤ cs.length :=
      (List.dropWhile_sublist _).length_le
    exact splitRunsF_irrel m _ (cs.dropWhile isSplitB) (by omega) (le_refl _)

theorem pySplitF_irrel : ∀ (f₁ f₂ : Nat) (l : List Char),
    l.length ≤ f₁ → l.length ≤ f₂ → pySplitF f₁ l = pySplitF f₂ l := by
  intro f₁
  induction f₁ with
  | zero =>
    intro f₂ l h1 h2
    have hl : l = [] := List.length_eq_zero.mp (Nat.le_zero.mp h1)
    subst hl
    cases f₂ with
    | zero => rfl
    | succ f => rfl
  | succ f ih =>
    intro f₂ l h1 h2
    cases f₂ with
    | zero =>
      have hl : l = [] := List.length_eq_zero.mp (Nat.le_zero.mp h2)
      subst hl
      rfl
    | succ f₂' =>
      cases hd : l.dropWhile isSpaceB with
      | nil => simp [pySplitF, hd]
      | cons c cs =>
        simp only [pySplitF, hd]
        congr 1
        have hc : isSpaceB c = false := by
          have hne : l.dropWhile isSpaceB ≠ [] := by simp [hd]
          have hh := List.head_dropWhile_not isSpaceB l hne
          simp only [hd, List.head_cons] at hh
          exact hh
        have hle : (c :: cs).length ≤ l.length :=
          hd ▸ (List.dropWhile_sublist _).length_le
        simp only [List.length_cons] at hle
        have harg : ((c :: cs).dropWhile (fun x => !(isSpaceB x))).length ≤ cs.length := by
          simp only [List.dropWhile_cons, hc, Bool.not_false, if_true]
          exact (List.dropWhile_sublist _).length_le
        exact ih f₂' _ (by omega) (by omega)

theorem pySplit_eq_nil {l : List Char} (h : l.dropWhile isSpaceB = []) :
    pySplit l = [] := by
  unfold pySplit
  cases hn : l.length with
  | zero => rfl
  | succ m => simp [pySplitF, h]

theorem pySplit_eq_cons {l : List Char} {c : Char} {cs : List Char}
    (h : l.dropWhile isSpaceB = c :: cs) :
    pySplit l = ((c :: cs).takeWhile (fun x => !(isSpaceB x))) ::
      pySplit ((c :: cs).dropWhile (fun x => !(isSpaceB x))) := by
  unfold pySplit
  cases hn : l.length with
  | zero =>
    have hl : l = [] := List.length_eq_zero.mp hn
    subst hl
    simp at h
  | succ m =>
    simp only [pySplitF, h]
    congr 1
    have hc : isSpaceB c = false := by
      have hne : l.dropWhile isSpaceB ≠ [] := by simp [h]
      have hh := List.head_dropWhile_not isSpaceB l hne
      simp only [h, List.head_cons] at hh
      exact hh
    have hle : (c :: cs).length ≤ l.length :=
      h ▸ (List.dropWhile_sublist _).length_le
    simp only [List.length_cons] at hle
    have harg : ((c :: cs).dropWhile (fun x => !(isSpaceB x))).length ≤ cs.length := by
      simp only [List.dropWhile_cons, hc, Bool.not_false, if_true]
      exact (List.dropWhile_sublist _).length_le
    exact pySplitF_irrel m _ _ (by omega) (le_refl _)

theorem splitRuns_nil : splitRuns [] = [[]] := by
  rw [splitRuns_eq_single (by rfl)]
  rfl

theorem pySplit_nil : pySplit [] = [] :=
  pySplit_eq_nil (l := []) rfl

theorem split_sentences_nil : split_sentences [] = [] := by
  unfold split_sentences
  rw [splitRuns_nil]
  rfl

/-! ## Tokens produced by `pySplit` -/

theorem dropWhile_eq_self_of_head {p : Char → Bool} {c : Char} {cs : List Char}
    (hc : p c = false) : (c :: cs).dropWhile p = c :: cs := by
  simp [List.dropWhile_cons, hc]

theorem pySplit_tokens_aux : ∀ (n : Nat) (l : List Char), l.length ≤ n →
    ∀ t ∈ pySplit l, t ≠ [] ∧ ∀ c ∈ t, isSpaceB c = false := by
  intro n
  induction n with
  | zero =>
    intro l hl t ht
    have : l = [] := List.length_eq_zero.mp (Nat.le_zero.mp hl)
    subst this
    rw [pySplit_nil] at ht
    simp at ht
  | succ n ih =>
    intro l hl t ht
    cases hd : l.dropWhile isSpaceB with
    | nil =>
      rw [pySplit_eq_nil hd] at ht
      simp at ht
    | cons c cs =>
      have hc : isSpaceB c = false := by
        have hne : l.dropWhile isSpaceB ≠ [] := by simp [hd]
        have hh := List.head_dropWhile_not isSpaceB l hne
        simp only [hd, List.head_cons] at hh
        exact hh
      rw [pySplit_eq_cons hd] at ht
      rcases List.mem_cons.mp ht with h1 | h2
      · subst h1
        constructor
        · simp [List.takeWhile_cons, hc]
        · intro x hx
          have := List.mem_takeWhile_imp hx
          simpa using this
      · have hle : (c :: cs).length ≤ l.length :=
          hd ▸ (List.dropWhile_sublist _).length_le
        simp only [List.length_cons] at hle
        have harg : ((c :: cs).dropWhile (fun x => !(isSpaceB x))).length ≤ cs.length := by
          simp only [List.dropWhile_cons, hc, Bool.not_false, if_true]
          exact (List.dropWhile_sublist _).length_le
        exact ih _ (by omega) t h2

theorem pySplit_tokens (l : List Char) :
    ∀ t ∈ pySplit l, t ≠ [] ∧ ∀ c ∈ t, isSpaceB c = false :=
  pySplit_tokens_aux l.length l (le_refl _)

theorem pySplit_singleton {u : List Char} (hne : u ≠ [])
    (hns : ∀ c ∈ u, isSpaceB c = false) : pySplit u = [u] := by
  cases u with
  | nil => exact absurd rfl hne
  | cons c cs =>
    have hc : isSpaceB c = false := hns c (by simp)
    have hd : (c :: cs).dropWhile isSpaceB = c :: cs := dropWhile_eq_self_of_head hc
    rw [pySplit_eq_cons hd]
    have hall : ∀ x ∈ c :: cs, (fun y => !(isSpaceB y)) x = true := by
      intro x hx
      simp [hns x hx]
    rw [takeWhile_eq_self_of_sat hall, dropWhile_eq_nil_of_sat hall, pySplit_nil]

theorem pySplit_congr {l₁ l₂ : List Char}
    (h : l₁.dropWhile isSpaceB = l₂.dropWhile isSpaceB) : pySplit l₁ = pySplit l₂ := by
  cases hd : l₂.dropWhile isSpaceB with
  | nil => rw [pySplit_eq_nil (h.trans hd), pySplit_eq_nil hd]
  | cons c cs => rw [pySplit_eq_cons (h.trans hd), pySplit_eq_cons hd]

theorem pySplit_joinSpace : ∀ (ws : List (List Char)) (t : List Char), ws ≠ [] →
    (∀ w ∈ ws, w ≠ [] ∧ ∀ c ∈ w, isSpaceB c = false) →
    (∀ c ∈ t, isSpaceB c = false) →
    (pySplit (joinSpace ws ++ t)).length = ws.length := by
  intro ws
  induction ws with
  | nil => intro t h; exact absurd rfl h
  | cons w ws' ih =>
    intro t _ hall ht
    cases ws' with
    | nil =>
      have hw := hall w (by simp)
      have hne : w ++ t ≠ [] := by
        cases w with
        | nil => exact absurd rfl hw.1
        | cons a as => simp
      have hns : ∀ c ∈ w ++ t, isSpaceB c = false := by
        intro c hc
        rcases List.mem_append.mp hc with h1 | h2
        · exact hw.2 c h1
        · exact ht c h2
      show (pySplit (joinSpace [w] ++ t)).length = 1
      rw [show joinSpace [w] = w from rfl, pySplit_singleton hne hns]
      rfl
    | cons w' rest =>
      have hw := hall w (by simp)
      have hwall : ∀ x ∈ w, (fun y => !(isSpaceB y)) x = true := by
        intro x hx
        simp [hw.2 x hx]
      have hj : joinSpace (w :: w' :: rest) = w ++ ' ' :: joinSpace (w' :: rest) := rfl
      set Y := joinSpace (w' :: rest) ++ t with hY
      have hassoc : joinSpace (w :: w' :: rest) ++ t = w ++ (' ' :: Y) := by
        rw [hj]
        simp [hY]
      rw [hassoc]
      obtain ⟨c, wr, hw_eq⟩ : ∃ c wr, w = c :: wr := by
        cases w with
        | nil => exact absurd rfl hw.1
        | cons a as => exact ⟨a, as, rfl⟩
      have hc : isSpaceB c = false := hw.2 c (by simp [hw_eq])
      have hd : (w ++ (' ' :: Y)).dropWhile isSpaceB = c :: (wr ++ (' ' :: Y)) := by
        rw [hw_eq]
        exact dropWhile_eq_self_of_head hc
      rw [pySplit_eq_cons hd]
      have hback : c :: (wr ++ (' ' :: Y)) = w ++ (' ' :: Y) := by rw [hw_eq]; rfl
      have htok : (c :: (wr ++ (' ' :: Y))).takeWhile (fun x => !(isSpaceB x)) = w := by
        rw [hback, takeWhile_append_sat _ hwall]
        simp [List.takeWhile_cons, isSpaceB]
      have hrest : (c :: (wr ++ (' ' :: Y))).dropWhile (fun x => !(isSpaceB x)) = ' ' :: Y := by
        rw [hback, dropWhile_append_sat _ hwall]
        simp [List.dropWhile_cons, isSpaceB]
      rw [hrest]
      have hcongr : pySplit (' ' :: Y) = pySplit Y := by
        apply pySplit_congr
        simp [List.dropWhile_cons, isSpaceB]
      rw [hcongr]
      have ihlen : (pySplit Y).length = (w' :: rest).length := by
        apply ih t (by simp) (fun x hx => hall x (by simp [hx])) ht
      simp only [List.length_cons]
      rw [ihlen]
      simp

/-- Claim C5: `_shorten_sentence` returns the sentence with trailing `. , ! ?`
characters stripped when it has at most 6 whitespace-delimited tokens, and
otherwise returns exactly the first 6 tokens joined by single spaces followed
by the ellipsis marker `...` (so the result then has exactly 6
whitespace-delimited tokens). -/
theorem claim_C5 (s : List Char) :
    ((pySplit s).length ≤ 6 → shorten_sentence s 6 = rstripPunct s) ∧
    (6 < (pySplit s).length →
      shorten_sentence s 6 =
        joinSpace ((pySplit s).take 6) ++ ('.' :: '.' :: '.' :: []) ∧
      (pySplit (shorten_sentence s 6)).length = 6) := by
  constructor
  · intro h
    unfold shorten_sentence
    simp [h]
  · intro h
    have hif : shorten_sentence s 6 =
        joinSpace ((pySplit s).take 6) ++ ('.' :: '.' :: '.' :: []) := by
      unfold shorten_sentence
      simp [Nat.not_le.mpr h]
    refine ⟨hif, ?_⟩
    rw [hif]
    have hlen6 : ((pySplit s).take 6).length = 6 := by
      rw [List.length_take]
      omega
    rw [pySplit_joinSpace ((pySplit s).take 6) _ ?_ ?_ ?_]
    · exact hlen6
    · intro hnil
      rw [hnil] at hlen6
      simp at hlen6
    · intro w hw
      exact pySplit_tokens s w (List.take_subset 6 (pySplit s) hw)
    · intro c hc
      have : c = '.' := by simpa using hc
      subst this
      rfl

/-- Witness for claim C5 at two concrete sentences, one for each branch. -/
theorem claim_C5_witness :
    ((pySplit ("hi there!?..".toList)).length ≤ 6 ∧
      shorten_sentence ("hi there!?..".toList) 6 = rstripPunct ("hi there!?..".toList)) ∧
    (6 < (pySplit ("a b c d e f g".toList)).length ∧
      (pySplit (shorten_sentence ("a b c d e f g".toList) 6)).length = 6) :=
  ⟨⟨by decide, (claim_C5 ("hi there!?..".toList)).1 (by decide)⟩,
   ⟨by decide, ((claim_C5 ("a b c d e f g".toList)).2 (by decide)).2⟩⟩

/-- Claim C7: with fewer than 2 sentences `cluster_sentences` returns the
single cluster `{0: sentences}` and does not consult the clusterer's labels;
otherwise, with no target count the derived cluster count is
`min(MAX_TOPICS, max(2, n / 5))` with `MAX_TOPICS = 10`, and the KMeans
fallback requests `k = min(targetCount, n)` with the fixed random seed 42. -/
theorem claim_C7 :
    (∀ (s : List (List Char)) (t : Option Nat) (labels : List Int),
      s.length < 2 → cluster_sentences s t labels = [(0, s)]) ∧
    (∀ (s : List (List Char)) (t : Option Nat) (l₁ l₂ : List Int),
      s.length < 2 → cluster_sentences s t l₁ = cluster_sentences s t l₂) ∧
    (∀ n : Nat, autoNClusters n = min MAX_TOPICS (max 2 (n / 5))) ∧
    MAX_TOPICS = 10 ∧
    (∀ (n t : Nat), kmeansK n (some t) = min t n) ∧
    kmeansRandomState = 42 := by
  refine ⟨?_, ?_, fun n => rfl, rfl, fun n t => rfl, rfl⟩
  · intro s t labels h
    unfold cluster_sentences
    simp [h]
  · intro s t l₁ l₂ h
    unfold cluster_sentences
    simp [h]

/-- Witness for claim C7 at a one-sentence input and two label lists. -/
theorem claim_C7_witness :
    ([['a']] : List (List Char)).length < 2 ∧
    cluster_sentences [['a']] none [5] = [(0, [['a']])] ∧
    cluster_sentences [['a']] none [5] = cluster_sentences [['a']] none [7] :=
  ⟨by decide, claim_C7.1 [['a']] none [5] (by decide),
    claim_C7.2.1 [['a']] none [5] [7] (by decide)⟩

/-- Claim C9 counterexample: synthesis on a size-0 cluster does not fail —
`generate_topic_title` returns the default title `"Topic"` and `rank_bullets`
returns the empty bullet list, so a title and a bullet list are produced. -/
theorem claim_C9_counterexample :
    generate_topic_title [] [] = ('T' :: 'o' :: 'p' :: 'i' :: 'c' :: []) ∧
    rank_bullets [] [] 5 = [] := by
  constructor
  · rfl
  · rfl

/-- Claim C9 amended: on a size-0 cluster, title and bullet synthesis do not
raise: for every score list and bullet cap, `generate_topic_title` returns the
default title `"Topic"` and `rank_bullets` returns the empty list. -/
theorem claim_C9_amended (scores : List ℚ) (maxBullets : Nat) :
    generate_topic_title [] scores = ('T' :: 'o' :: 'p' :: 'i' :: 'c' :: []) ∧
    rank_bullets [] scores maxBullets = [] := by
  constructor
  · rfl
  · unfold rank_bullets
    simp

/-! ## Lemmas about `argsortAsc` and `rankIndices` -/

theorem insIdx_perm (scores : List ℚ) (i : Nat) :
    ∀ l : List Nat, (insIdx scores i l).Perm (i :: l) := by
  intro l
  induction l with
  | nil => exact List.Perm.refl _
  | cons j js ih =>
    unfold insIdx
    by_cases h : scores.getD i 0 ≤ scores.getD j 0
    · rw [if_pos h]
    · rw [if_neg h]
      exact (ih.cons j).trans (List.Perm.swap i j js)

theorem argsortAsc_perm (scores : List ℚ) :
    (argsortAsc scores).Perm (List.range scores.length) := by
  unfold argsortAsc
  generalize List.range scores.length = l
  induction l with
  | nil => exact List.Perm.refl _
  | cons x xs ih =>
    simp only [List.foldr_cons]
    exact (insIdx_perm scores x _).trans (ih.cons x)

theorem insIdx_pairwise (scores : List ℚ) (i : Nat) (l : List Nat)
    (h : l.Pairwise (fun a b => scores.getD a 0 ≤ scores.getD b 0)) :
    (insIdx scores i l).Pairwise (fun a b => scores.getD a 0 ≤ scores.getD b 0) := by
  induction l with
  | nil => simp [insIdx]
  | cons j js ih =>
    rcases List.pairwise_cons.mp h with ⟨hj, hjs⟩
    unfold insIdx
    by_cases hle : scores.getD i 0 ≤ scores.getD j 0
    · simp only [hle, if_true]
      refine List.pairwise_cons.mpr ⟨?_, h⟩
      intro b hb
      rcases List.mem_cons.mp hb with h1 | h2
      · subst h1; exact hle
      · exact le_trans hle (hj b h2)
    · simp only [hle, if_false]
      refine List.pairwise_cons.mpr ⟨?_, ih hjs⟩
      intro b hb
      have hb2 := (insIdx_perm scores i js).mem_iff.mp hb
      rcases List.mem_cons.mp hb2 with h1 | h2
      · subst h1; exact le_of_not_le hle
      · exact hj b h2

theorem argsortAsc_pairwise (scores : List ℚ) :
    (argsortAsc scores).Pairwise (fun a b => scores.getD a 0 ≤ scores.getD b 0) := by
  unfold argsortAsc
  generalize List.range scores.length = l
  induction l with
  | nil => simp
  | cons x xs ih =>
    simp only [List.foldr_cons]
    exact insIdx_pairwise scores x _ ih

theorem argsortAsc_length (scores : List ℚ) :
    (argsortAsc scores).length = scores.length := by
  rw [(argsortAsc_perm scores).length_eq, List.length_range]

theorem rankIndices_length (scores : List ℚ) (k : Nat) (hk : 1 ≤ k)
    (hle : k ≤ scores.length) : (rankIndices scores k).length = k := by
  unfold rankIndices lastSlice
  have hk0 : k ≠ 0 := by omega
  simp only [hk0, if_false, List.length_reverse, List.length_drop, argsortAsc_length]
  omega

/-- Claim C4 counterexample: with `max_bullets = 0` and a non-empty cluster,
`rank_bullets` returns the whole cluster (Python's `[-0:]` slice is the whole
list), so its result is not bounded by `max_bullets`. -/
theorem claim_C4_counterexample :
    rank_bullets [['a']] [0] 0 = [['a']] ∧
    ¬ ((rank_bullets [['a']] [0] 0).length ≤ 0) := by
  constructor
  · rfl
  · decide

/-- Claim C4 amended: for `max_bullets ≥ 1` (in particular the default 5),
`rank_bullets` returns at most `max_bullets` sentences; a cluster of at most
`max_bullets` sentences is returned unchanged, and a larger cluster yields
exactly `max_bullets` sentences, listed by descending centroid similarity
score (deterministic tie order), every selected score being at least every
unselected score.  With `max_bullets = 0` and a non-empty cluster the code
returns all sentences instead. -/
theorem claim_C4_amended (sentences : List (List Char)) (scores : List ℚ)
    (maxBullets : Nat) (hm : 1 ≤ maxBullets) (hl : scores.length = sentences.length) :
    (rank_bullets sentences scores maxBullets).length ≤ maxBullets ∧
    (sentences.length ≤ maxBullets → rank_bullets sentences scores maxBullets = sentences) ∧
    (maxBullets < sentences.length →
      (rank_bullets sentences scores maxBullets).length = maxBullets ∧
      rank_bullets sentences scores maxBullets =
        (rankIndices scores maxBullets).map (fun i => sentences.getD i []) ∧
      (rankIndices scores maxBullets).Chain'
        (fun i j => scores.getD j 0 ≤ scores.getD i 0) ∧
      (∀ i ∈ rankIndices scores maxBullets, ∀ j < sentences.length,
        j ∉ rankIndices scores maxBullets → scores.getD j 0 ≤ scores.getD i 0)) := by
  have hsmall : sentences.length ≤ maxBullets →
      rank_bullets sentences scores maxBullets = sentences := by
    intro h
    unfold rank_bullets
    simp [h]
  have hbig : maxBullets < sentences.length →
      (rank_bullets sentences scores maxBullets).length = maxBullets ∧
      rank_bullets sentences scores maxBullets =
        (rankIndices scores maxBullets).map (fun i => sentences.getD i []) ∧
      (rankIndices scores maxBullets).Chain'
        (fun i j => scores.getD j 0 ≤ scores.getD i 0) ∧
      (∀ i ∈ rankIndices scores maxBullets, ∀ j < sentences.length,
        j ∉ rankIndices scores maxBullets → scores.getD j 0 ≤ scores.getD i 0) := by
    intro h
    have hmap : rank_bullets sentences scores maxBullets =
        (rankIndices scores maxBullets).map (fun i => sentences.getD i []) := by
      unfold rank_bullets
      simp [Nat.not_le.mpr h]
    have hklen : (rankIndices scores maxBullets).length = maxBullets :=
      rankIndices_length scores maxBullets hm (by omega)
    refine ⟨by rw [hmap, List.length_map, hklen], hmap, ?_, ?_⟩
    · have hpw : (rankIndices scores maxBullets).Pairwise
          (fun i j => scores.getD j 0 ≤ scores.getD i 0) := by
        unfold rankIndices lastSlice
        have hk0 : maxBullets ≠ 0 := by omega
        simp only [hk0, if_false]
        rw [List.pairwise_reverse]
        exact List.Pairwise.sublist (List.drop_sublist _ _) (argsortAsc_pairwise scores)
      exact hpw.chain'
    · intro i hi j hj hnj
      have hk0 : maxBullets ≠ 0 := by omega
      have hdecomp := List.take_append_drop
        ((argsortAsc scores).length - maxBullets) (argsortAsc scores)
      have hpw := argsortAsc_pairwise scores
      rw [← hdecomp] at hpw
      have hsplit := (List.pairwise_append.mp hpw).2.2
      have hi' : i ∈ (argsortAsc scores).drop ((argsortAsc scores).length - maxBullets) := by
        unfold rankIndices lastSlice at hi
        simp only [hk0, if_false, List.mem_reverse] at hi
        exact hi
      have hjmem : j ∈ argsortAsc scores := by
        rw [(argsortAsc_perm scores).mem_iff]
        rw [List.mem_range, hl]
        exact hj
      have hjtake : j ∈ (argsortAsc scores).take ((argsortAsc scores).length - maxBullets) := by
        rw [← hdecomp] at hjmem
        rcases List.mem_append.mp hjmem with h1 | h2
        · exact h1
        · exfalso
          apply hnj
          unfold rankIndices lastSlice
          simp only [hk0, if_false, List.mem_reverse]
          exact h2
      exact hsplit j hjtake i hi'
  refine ⟨?_, hsmall, hbig⟩
  by_cases h : sentences.length ≤ maxBullets
  · rw [hsmall h]
    exact h
  · rw [(hbig (by omega)).1]

/-- Witness for claim C4 at a three-sentence cluster with bullet cap 2. -/
theorem claim_C4_witness :
    (1 ≤ 2 ∧ ([5, 1, 3] : List ℚ).length = ([['x'], ['y'], ['z']] : List (List Char)).length) ∧
    (rank_bullets [['x'], ['y'], ['z']] [5, 1, 3] 2).length = 2 :=
  ⟨⟨by decide, by decide⟩,
    ((claim_C4_amended [['x'], ['y'], ['z']] [5, 1, 3] 2 (by decide) (by decide)).2.2
      (by decide)).1⟩

/-! ## Lemmas about the cluster grouping loop -/

theorem lookupVal_addToCluster (m : List (Int × List (List Char))) (k' k : Int)
    (s : List Char) :
    lookupVal (addToCluster m k' s) k =
      lookupVal m k ++ (if k' = k then [s] else []) := by
  induction m with
  | nil =>
    unfold addToCluster lookupVal
    by_cases h : k' = k
    · simp [h]
    · simp [h, lookupVal]
  | cons a rest ih =>
    obtain ⟨ak, al⟩ := a
    unfold addToCluster
    by_cases h1 : ak = k'
    · simp only [h1, if_true]
      unfold lookupVal
      by_cases h2 : k' = k
      · simp [h2]
      · simp [h2]
    · simp only [h1, if_false]
      unfold lookupVal
      by_cases h2 : ak = k
      · have h3 : ¬ (k' = k) := by
          intro he
          exact h1 (h2.trans he.symm)
        simp [h2, h3]
      · simp [h2, ih]

theorem flatten_addToCluster (m : List (Int × List (List Char))) (k : Int)
    (s : List Char) :
    ((addToCluster m k s).map Prod.snd).flatten.Perm
      ((m.map Prod.snd).flatten ++ [s]) := by
  induction m with
  | nil => simp [addToCluster]
  | cons a rest ih =>
    obtain ⟨ak, al⟩ := a
    unfold addToCluster
    by_cases h1 : ak = k
    · simp only [h1, if_true, List.map_cons, List.flatten_cons]
      have hshape : (al ++ [s]) ++ ((rest.map Prod.snd).flatten) =
          al ++ ([s] ++ (rest.map Prod.snd).flatten) := by
        simp
      rw [hshape]
      have hperm : ([s] ++ (rest.map Prod.snd).flatten).Perm
          ((rest.map Prod.snd).flatten ++ [s]) := List.perm_append_comm
      have := hperm.append_left al
      refine this.trans ?_
      simp
    · simp only [h1, if_false, List.map_cons, List.flatten_cons]
      have := ih.append_left al
      refine this.trans ?_
      simp

theorem foldl_addToCluster_flatten (labels : List Int) :
    ∀ (ps : List (Int × List Char)) (m : List (Int × List (List Char))),
    (((ps.foldl (fun m p => addToCluster m (effLabel labels p.1) p.2) m).map
      Prod.snd).flatten).Perm ((m.map Prod.snd).flatten ++ ps.map Prod.snd) := by
  intro ps
  induction ps with
  | nil => intro m; simp
  | cons p ps ih =>
    intro m
    simp only [List.foldl_cons, List.map_cons]
    refine (ih (addToCluster m (effLabel labels p.1) p.2)).trans ?_
    have h1 := (flatten_addToCluster m (effLabel labels p.1) p.2).append_right
      (ps.map Prod.snd)
    refine h1.trans ?_
    simp

theorem groupClusters_flatten (sentences : List (List Char)) (labels : List Int)
    (h : labels.length = sentences.length) :
    ((groupClusters sentences labels).map Prod.snd).flatten.Perm sentences := by
  unfold groupClusters
  refine (foldl_addToCluster_flatten labels (labels.zip sentences) []).trans ?_
  simp only [List.map_nil, List.flatten_nil, List.nil_append]
  rw [List.map_snd_zip labels sentences (by omega)]

theorem foldl_addToCluster_lookup (labels : List Int) (k : Int) :
    ∀ (ps : List (Int × List Char)) (m : List (Int × List (List Char))),
    lookupVal (ps.foldl (fun m p => addToCluster m (effLabel labels p.1) p.2) m) k =
      lookupVal m k ++
        ((ps.filter (fun p => effLabel labels p.1 == k)).map Prod.snd) := by
  intro ps
  induction ps with
  | nil => intro m; simp
  | cons p ps ih =>
    intro m
    simp only [List.foldl_cons]
    rw [ih (addToCluster m (effLabel labels p.1) p.2),
      lookupVal_addToCluster m (effLabel labels p.1) k p.2]
    by_cases hk : effLabel labels p.1 = k
    · simp [hk, List.filter_cons]
    · simp [hk, List.filter_cons]

theorem lookupVal_groupClusters (sentences : List (List Char)) (labels : List Int)
    (k : Int) :
    lookupVal (groupClusters sentences labels) k =
      (((labels.zip sentences).filter (fun p => effLabel labels p.1 == k)).map
        Prod.snd) := by
  unfold groupClusters
  rw [foldl_addToCluster_lookup labels k (labels.zip sentences) []]
  rfl

theorem insertTopicDesc_perm (t : Topic) :
    ∀ l : List Topic, (insertTopicDesc t l).Perm (t :: l) := by
  intro l
  induction l with
  | nil => exact List.Perm.refl _
  | cons u us ih =>
    unfold insertTopicDesc
    by_cases h : u.sentence_count ≤ t.sentence_count
    · rw [if_pos h]
    · rw [if_neg h]
      exact (ih.cons u).trans (List.Perm.swap t u us)

theorem sortTopics_perm (l : List Topic) : (sortTopics l).Perm l := by
  unfold sortTopics
  induction l with
  | nil => exact List.Perm.refl _
  | cons x xs ih =>
    simp only [List.foldr_cons]
    exact (insertTopicDesc_perm x _).trans (ih.cons x)

/-- Claim C2: `total_sentences` equals the length of
`split_sentences(clean_text(text))`, the topics' `sentence_count` values sum
to it, and the multiset union of all clusters returned by `cluster_sentences`
is exactly the segmented sentence list (no sentence dropped or duplicated).
The hypothesis records the external clusterer's contract of one label per
sentence. -/
theorem claim_C2 (labels : List Int) (scoresFor : List (List Char) → List ℚ)
    (text : List Char)
    (h : labels.length = (split_sentences (clean_text text)).length) :
    (process_text labels scoresFor text).total_sentences =
      (split_sentences (clean_text text)).length ∧
    ((process_text labels scoresFor text).topics.map
      (fun t => t.sentence_count)).sum = (split_sentences (clean_text text)).length ∧
    (((cluster_sentences (split_sentences (clean_text text)) none labels).map
      Prod.snd).flatten).Perm (split_sentences (clean_text text)) := by
  have hflat : (((cluster_sentences (split_sentences (clean_text text)) none labels).map
      Prod.snd).flatten).Perm (split_sentences (clean_text text)) := by
    unfold cluster_sentences
    by_cases hlt : (split_sentences (clean_text text)).length < 2
    · simp [hlt]
    · simp only [hlt, if_false]
      exact groupClusters_flatten _ labels h
  refine ⟨?_, ?_, hflat⟩
  · unfold process_text
    by_cases he : (split_sentences (clean_text text)).isEmpty
    · simp only [he, if_true]
      rw [List.isEmpty_iff.mp he]
      rfl
    · simp [he]
  · unfold process_text
    by_cases he : (split_sentences (clean_text text)).isEmpty
    · simp only [he, if_true]
      rw [List.isEmpty_iff.mp he]
      rfl
    · simp only [he, if_false]
      have hperm : (sortTopics (topicsOf
          (cluster_sentences (split_sentences (clean_text text)) none labels)
          scoresFor)).Perm (topicsOf
          (cluster_sentences (split_sentences (clean_text text)) none labels)
          scoresFor) := sortTopics_perm _
      have hsum := (hperm.map (fun t => t.sentence_count)).sum_eq
      show ((sortTopics (topicsOf _ scoresFor)).map (fun t => t.sentence_count)).sum = _
      rw [hsum]
      unfold topicsOf
      rw [List.map_map]
      have hmap : ((fun t : Topic => t.sentence_count) ∘
          (fun p : Int × List (List Char) =>
            ({ id := p.1, title := generate_topic_title p.2 (scoresFor p.2),
               bullets := rank_bullets p.2 (scoresFor p.2) MAX_BULLETS_PER_SLIDE,
               sentence_count := p.2.length } : Topic))) =
          (fun p : Int × List (List Char) => p.2.length) := rfl
      rw [hmap]
      have hlen := hflat.length_eq
      rw [List.length_flatten, List.map_map] at hlen
      exact hlen

/-- Witness for claim C2 at a two-sentence text and labels `[0, 1]`. -/
theorem claim_C2_witness :
    ([0, 1] : List Int).length =
      (split_sentences (clean_text ("one two three. four five six.".toList))).length ∧
    (process_text [0, 1] (fun cs => List.replicate cs.length 0)
      ("one two three. four five six.".toList)).total_sentences =
      (split_sentences (clean_text ("one two three. four five six.".toList))).length ∧
    ((process_text [0, 1] (fun cs => List.replicate cs.length 0)
      ("one two three. four five six.".toList)).topics.map
      (fun t => t.sentence_count)).sum =
      (split_sentences (clean_text ("one two three. four five six.".toList))).length :=
  ⟨by decide,
    (claim_C2 [0, 1] (fun cs => List.replicate cs.length 0)
      ("one two three. four five six.".toList) (by decide)).1,
    (claim_C2 [0, 1] (fun cs => List.replicate cs.length 0)
      ("one two three. four five six.".toList) (by decide)).2.1⟩

/-- Claim C8: when the grouping loop runs (at least 2 sentences, one label
per sentence), every noise-labelled (`-1`) sentence is placed in the synthetic
cluster with id `max(labels) + 1`, and every input sentence is assigned to
some cluster. -/
theorem claim_C8 (sentences : List (List Char)) (labels : List Int)
    (h : labels.length = sentences.length) (h2 : 2 ≤ sentences.length) :
    (∀ i, i < sentences.length → labels.getD i 0 = -1 →
      sentences.getD i [] ∈
        lookupVal (cluster_sentences sentences none labels) (maxLabel labels + 1)) ∧
    (∀ i, i < sentences.length →
      ∃ p ∈ cluster_sentences sentences none labels, sentences.getD i [] ∈ p.2) := by
  have hns : ¬ (sentences.length < 2) := by omega
  constructor
  · intro i hi hni
    have hil : i < labels.length := by omega
    have hni' : labels[i] = -1 := by
      rw [← List.getD_eq_getElem labels 0 hil]
      exact hni
    unfold cluster_sentences
    rw [if_neg hns, lookupVal_groupClusters]
    apply List.mem_map.mpr
    have hziplen : i < (labels.zip sentences).length := by
      rw [List.length_zip]
      omega
    have hzipi : (labels.zip sentences)[i] = (labels[i], sentences[i]) :=
      List.getElem_zip (h := hziplen)
    refine ⟨(labels[i], sentences[i]), List.mem_filter.mpr ⟨?_, ?_⟩, ?_⟩
    · rw [← hzipi]
      exact List.getElem_mem hziplen
    · simp [effLabel, hni']
    · show sentences[i] = sentences.getD i []
      rw [List.getD_eq_getElem sentences [] hi]
  · intro i hi
    have hmem : sentences.getD i [] ∈ sentences := by
      rw [List.getD_eq_getElem sentences [] hi]
      exact List.getElem_mem hi
    have hperm := groupClusters_flatten sentences labels h
    have hflat : sentences.getD i [] ∈
        ((groupClusters sentences labels).map Prod.snd).flatten :=
      hperm.mem_iff.mpr hmem
    rcases List.mem_flatten.mp hflat with ⟨l, hl, hx⟩
    rcases List.mem_map.mp hl with ⟨p, hp, hpl⟩
    refine ⟨p, ?_, hpl ▸ hx⟩
    unfold cluster_sentences
    rw [if_neg hns]
    exact hp

/-- Witness for claim C8: three sentences, labels `[0, -1, -1]`; sentence 1 is
noise and lands in the synthetic cluster with id `max(labels) + 1 = 1`. -/
theorem claim_C8_witness :
    ([0, -1, -1] : List Int).length = ([['a'], ['b'], ['c']] : List (List Char)).length ∧
    2 ≤ ([['a'], ['b'], ['c']] : List (List Char)).length ∧
    ([['a'], ['b'], ['c']] : List (List Char)).getD 1 [] ∈
      lookupVal (cluster_sentences [['a'], ['b'], ['c']] none [0, -1, -1])
        (maxLabel [0, -1, -1] + 1) :=
  ⟨by decide, by decide,
    (claim_C8 [['a'], ['b'], ['c']] [0, -1, -1] (by decide) (by decide)).1 1
      (by decide) (by decide)⟩

/-! ## Sortedness and stability of the topic sort -/

theorem insertTopicDesc_pairwise (t : Topic) (l : List Topic)
    (h : l.Pairwise (fun a b => b.sentence_count ≤ a.sentence_count)) :
    (insertTopicDesc t l).Pairwise (fun a b => b.sentence_count ≤ a.sentence_count) := by
  induction l with
  | nil => simp [insertTopicDesc]
  | cons u us ih =>
    rcases List.pairwise_cons.mp h with ⟨hu, hus⟩
    unfold insertTopicDesc
    by_cases hle : u.sentence_count ≤ t.sentence_count
    · rw [if_pos hle]
      refine List.pairwise_cons.mpr ⟨?_, h⟩
      intro b hb
      rcases List.mem_cons.mp hb with h1 | h2
      · subst h1; exact hle
      · exact le_trans (hu b h2) hle
    · rw [if_neg hle]
      refine List.pairwise_cons.mpr ⟨?_, ih hus⟩
      intro b hb
      have hb2 := (insertTopicDesc_perm t us).mem_iff.mp hb
      rcases List.mem_cons.mp hb2 with h1 | h2
      · subst h1; exact le_of_not_le hle
      · exact hu b h2

theorem sortTopics_pairwise (l : List Topic) :
    (sortTopics l).Pairwise (fun a b => b.sentence_count ≤ a.sentence_count) := by
  unfold sortTopics
  induction l with
  | nil => simp
  | cons x xs ih =>
    simp only [List.foldr_cons]
    exact insertTopicDesc_pairwise x _ ih

theorem insertTopicDesc_filter (t : Topic) (l : List Topic) (c : Nat) :
    (insertTopicDesc t l).filter (fun u => u.sentence_count == c) =
      (if t.sentence_count = c then [t] else []) ++
        l.filter (fun u => u.sentence_count == c) := by
  induction l with
  | nil =>
    unfold insertTopicDesc
    by_cases h : t.sentence_count = c
    · simp [List.filter_cons, h]
    · simp [List.filter_cons, h]
  | cons u us ih =>
    unfold insertTopicDesc
    by_cases hle : u.sentence_count ≤ t.sentence_count
    · rw [if_pos hle]
      by_cases h : t.sentence_count = c
      · simp [List.filter_cons, h]
      · simp [List.filter_cons, h]
    · rw [if_neg hle]
      by_cases h : t.sentence_count = c
      · have hu : ¬ (u.sentence_count = c) := by omega
        simp only [List.filter_cons, ih]
        simp [h, hu]
      · by_cases hu : u.sentence_count = c
        · simp only [List.filter_cons, ih]
          simp [h, hu]
        · simp only [List.filter_cons, ih]
          simp [h, hu]

theorem sortTopics_filter (l : List Topic) (c : Nat) :
    (sortTopics l).filter (fun u => u.sentence_count == c) =
      l.filter (fun u => u.sentence_count == c) := by
  unfold sortTopics
  induction l with
  | nil => simp
  | cons x xs ih =>
    simp only [List.foldr_cons, List.filter_cons]
    rw [insertTopicDesc_filter]
    by_cases h : x.sentence_count = c
    · simp [h, ih]
    · simp [h, ih]

/-- Claim C3 counterexample: with clusterer output labels `[1, 0]` on a
two-sentence text, the two topics tie on `sentence_count` and are emitted in
discovery order `[1, 0]` — not in ascending cluster-id order. -/
theorem claim_C3_counterexample :
    ((process_text [1, 0] (fun cs => List.replicate cs.length 0)
      ("one two three. four five six.".toList)).topics.map
        (fun t => t.sentence_count)) = [1, 1] ∧
    ((process_text [1, 0] (fun cs => List.replicate cs.length 0)
      ("one two three. four five six.".toList)).topics.map (fun t => t.id)) = [1, 0] ∧
    ¬ (((process_text [1, 0] (fun cs => List.replicate cs.length 0)
      ("one two three. four five six.".toList)).topics.map (fun t => t.id)).Pairwise
        (fun a b : Int => a ≤ b)) := by
  refine ⟨by decide, by decide, by decide⟩

/-- Claim C3 amended: topics are sorted by `sentence_count` descending with a
stable sort; among topics of equal `sentence_count` the order kept is the
cluster discovery order (dict insertion order of the grouping loop), which
need not be ascending cluster-id order. -/
theorem claim_C3_amended (labels : List Int)
    (scoresFor : List (List Char) → List ℚ) (text : List Char) :
    (process_text labels scoresFor text).topics.Pairwise
      (fun a b => b.sentence_count ≤ a.sentence_count) ∧
    (¬ (split_sentences (clean_text text)).isEmpty →
      ∀ c : Nat, (process_text labels scoresFor text).topics.filter
          (fun t => t.sentence_count == c) =
        (topicsOf (cluster_sentences (split_sentences (clean_text text)) none labels)
          scoresFor).filter (fun t => t.sentence_count == c)) := by
  unfold process_text
  by_cases he : (split_sentences (clean_text text)).isEmpty
  · simp only [he, if_true]
    exact ⟨List.Pairwise.nil, fun hne => absurd trivial hne⟩
  · simp only [he, if_false]
    exact ⟨sortTopics_pairwise _, fun _ c => sortTopics_filter _ c⟩

/-- Witness for claim C3 at labels `[1, 0]` and a two-sentence text. -/
theorem claim_C3_witness :
    (¬ (split_sentences (clean_text
      ("one two three. four five six.".toList))).isEmpty) ∧
    (process_text [1, 0] (fun cs => List.replicate cs.length 0)
      ("one two three. four five six.".toList)).topics.Pairwise
        (fun a b => b.sentence_count ≤ a.sentence_count) ∧
    (process_text [1, 0] (fun cs => List.replicate cs.length 0)
      ("one two three. four five six.".toList)).topics.filter
        (fun t => t.sentence_count == 1) =
      (topicsOf (cluster_sentences (split_sentences (clean_text
        ("one two three. four five six.".toList))) none [1, 0])
        (fun cs => List.replicate cs.length 0)).filter
          (fun t => t.sentence_count == 1) :=
  ⟨by decide,
    (claim_C3_amended [1, 0] (fun cs => List.replicate cs.length 0)
      ("one two three. four five six.".toList)).1,
    (claim_C3_amended [1, 0] (fun cs => List.replicate cs.length 0)
      ("one two three. four five six.".toList)).2 (by decide) 1⟩

/-! ## Degenerate input behaviour of `clean_text` -/

theorem collapseAux_true_all_space {l : List Char}
    (h : ∀ c ∈ l, isSpaceB c = true) : collapseAux true l = [] := by
  induction l with
  | nil => rfl
  | cons c cs ih =>
    unfold collapseAux
    rw [h c (by simp), if_pos rfl]
    exact ih (fun x hx => h x (by simp [hx]))

theorem clean_text_all_space {text : List Char}
    (h : ∀ c ∈ text, isSpaceB c = true) : clean_text text = [] := by
  unfold clean_text collapseWS
  cases text with
  | nil => rfl
  | cons c cs =>
    unfold collapseAux
    rw [h c (by simp)]
    simp only [if_true]
    rw [collapseAux_true_all_space (fun x hx => h x (by simp [hx]))]
    rfl

/-- Claim C1 counterexample: on empty input `process_text` returns
`slide_count = 0` with zero topics, so `slide_count` is neither
`len(topics) + 2` nor the claimed value 2. -/
theorem claim_C1_counterexample :
    (process_text [] (fun _ => []) []).slide_count = 0 ∧
    (process_text [] (fun _ => []) []).topics = [] ∧
    (process_text [] (fun _ => []) []).slide_count ≠
      (process_text [] (fun _ => []) []).topics.length + 2 := by
  refine ⟨by decide, by decide, by decide⟩

/-- Claim C1 amended: when segmentation yields at least one sentence,
`slide_count = len(topics) + 2`; on input that segments to nothing — in
particular any empty or whitespace-only input — `process_text` returns zero
topics, zero `total_sentences` and `slide_count = 0` (not 2). -/
theorem claim_C1_amended (labels : List Int)
    (scoresFor : List (List Char) → List ℚ) (text : List Char) :
    ((split_sentences (clean_text text)).isEmpty →
      process_text labels scoresFor text =
        { topics := [], slide_count := 0, total_sentences := 0 }) ∧
    (¬ (split_sentences (clean_text text)).isEmpty →
      (process_text labels scoresFor text).slide_count =
        (process_text labels scoresFor text).topics.length + 2) ∧
    ((∀ c ∈ text, isSpaceB c = true) →
      process_text labels scoresFor text =
        { topics := [], slide_count := 0, total_sentences := 0 }) := by
  refine ⟨?_, ?_, ?_⟩
  · intro he
    unfold process_text
    simp [he]
  · intro he
    unfold process_text
    simp [he]
  · intro hsp
    have he : (split_sentences (clean_text text)).isEmpty := by
      rw [clean_text_all_space hsp, split_sentences_nil]
      rfl
    unfold process_text
    simp [he]

/-- Witness for claim C1 at empty, two-sentence and whitespace-only inputs. -/
theorem claim_C1_witness :
    ((split_sentences (clean_text [])).isEmpty ∧
      process_text [] (fun _ => []) [] =
        { topics := [], slide_count := 0, total_sentences := 0 }) ∧
    ((¬ (split_sentences (clean_text
        ("one two three. four five six.".toList))).isEmpty) ∧
      (process_text [0, 1] (fun cs => List.replicate cs.length 0)
        ("one two three. four five six.".toList)).slide_count =
      (process_text [0, 1] (fun cs => List.replicate cs.length 0)
        ("one two three. four five six.".toList)).topics.length + 2) ∧
    ((∀ c ∈ ("  ".toList), isSpaceB c = true) ∧
      process_text [] (fun _ => []) ("  ".toList) =
        { topics := [], slide_count := 0, total_sentences := 0 }) :=
  ⟨⟨by decide, (claim_C1_amended [] (fun _ => []) []).1 (by decide)⟩,
   ⟨by decide,
    (claim_C1_amended [0, 1] (fun cs => List.replicate cs.length 0)
      ("one two three. four five six.".toList)).2.1 (by decide)⟩,
   ⟨by decide, (claim_C1_amended [] (fun _ => []) ("  ".toList)).2.2 (by decide)⟩⟩

/-! ## Structure of `clean_text` output -/

theorem mem_collapseAux {c : Char} :
    ∀ (l : List Char) (b : Bool), c ∈ collapseAux b l →
      c = ' ' ∨ (c ∈ l ∧ isSpaceB c = false) := by
  intro l
  induction l with
  | nil => intro b h; simp [collapseAux] at h
  | cons d ds ih =>
    intro b h
    unfold collapseAux at h
    by_cases hd : isSpaceB d = true
    · rw [if_pos hd] at h
      cases b with
      | true =>
        rcases ih true h with h1 | h2
        · exact Or.inl h1
        · exact Or.inr ⟨by simp [h2.1], h2.2⟩
      | false =>
        simp only [Bool.false_eq_true, if_false] at h
        rcases List.mem_cons.mp h with h1 | h2
        · exact Or.inl h1
        · rcases ih true h2 with h3 | h4
          · exact Or.inl h3
          · exact Or.inr ⟨by simp [h4.1], h4.2⟩
    · rw [if_neg hd] at h
      rcases List.mem_cons.mp h with h1 | h2
      · subst h1
        exact Or.inr ⟨by simp, by simpa using hd⟩
      · rcases ih false h2 with h3 | h4
        · exact Or.inl h3
        · exact Or.inr ⟨by simp [h4.1], h4.2⟩

theorem stripList_idem (l : List Char) : stripList (stripList l) = stripList l := by
  cases hd1 : l.dropWhile isSpaceB with
  | nil =>
    have h1 : stripList l = [] := by
      unfold stripList
      rw [hd1]
      rfl
    rw [h1]
    rfl
  | cons c cs =>
    have hc : isSpaceB c = false := by
      have hne : l.dropWhile isSpaceB ≠ [] := by simp [hd1]
      have hh := List.head_dropWhile_not isSpaceB l hne
      simp only [hd1, List.head_cons] at hh
      exact hh
    have hd2 : ∃ e : List Char,
        ((c :: cs).reverse).dropWhile isSpaceB = e ++ [c] := by
      have hrev : (c :: cs).reverse = cs.reverse ++ [c] := by simp
      rw [hrev, List.dropWhile_append]
      by_cases hemp : (cs.reverse.dropWhile isSpaceB).isEmpty
      · refine ⟨[], ?_⟩
        simp [hemp, List.dropWhile_cons, hc]
      · refine ⟨cs.reverse.dropWhile isSpaceB, ?_⟩
        simp [hemp]
    obtain ⟨e, he⟩ := hd2
    have hstrip : stripList l = (e ++ [c]).reverse := by
      unfold stripList
      rw [hd1, he]
    rw [hstrip]
    have hrev2 : (e ++ [c]).reverse = c :: e.reverse := by simp
    rw [hrev2]
    show stripList (c :: e.reverse) = c :: e.reverse
    unfold stripList
    rw [dropWhile_eq_self_of_head hc]
    have hback : (c :: e.reverse).reverse = e ++ [c] := by simp
    rw [hback, ← he, dropWhile_idem, he]
    simp

theorem collapseAux_true_head (l : List Char) :
    collapseAux true l = [] ∨
      ∃ d ds, collapseAux true l = d :: ds ∧ isSpaceB d = false := by
  induction l with
  | nil => exact Or.inl rfl
  | cons c cs ih =>
    unfold collapseAux
    by_cases hc : isSpaceB c = true
    · rw [if_pos hc, if_pos rfl]
      exact ih
    · rw [if_neg hc]
      exact Or.inr ⟨c, collapseAux false cs, rfl, by simpa using hc⟩

theorem collapseAux_chain (l : List Char) :
    ∀ b : Bool, (collapseAux b l).Chain'
      (fun a d => ¬(isSpaceB a = true ∧ isSpaceB d = true)) := by
  induction l with
  | nil => intro b; simp [collapseAux]
  | cons c cs ih =>
    intro b
    unfold collapseAux
    by_cases hc : isSpaceB c = true
    · rw [if_pos hc]
      cases b with
      | true => exact ih true
      | false =>
        simp only [Bool.false_eq_true, if_false]
        rw [List.chain'_cons']
        refine ⟨?_, ih true⟩
        intro y hy
        rcases collapseAux_true_head cs with h1 | ⟨d, ds, h2, h3⟩
        · rw [h1] at hy
          simp at hy
        · rw [h2] at hy
          simp only [List.head?_cons, Option.mem_def, Option.some.injEq] at hy
          subst hy
          intro hcon
          rw [h3] at hcon
          exact Bool.false_ne_true hcon.2
    · rw [if_neg hc]
      rw [List.chain'_cons']
      refine ⟨?_, ih false⟩
      intro y _
      intro hcon
      rw [show isSpaceB c = false by simpa using hc] at hcon
      exact Bool.false_ne_true hcon.1

theorem collapseWS_eq_self {l : List Char}
    (hchain : l.Chain' (fun a d => ¬(isSpaceB a = true ∧ isSpaceB d = true)))
    (hsp : ∀ c ∈ l, isSpaceB c = true → c = ' ') : collapseWS l = l := by
  unfold collapseWS
  induction l with
  | nil => rfl
  | cons c cs ih =>
    unfold collapseAux
    by_cases hc : isSpaceB c = true
    · rw [if_pos hc]
      have hcsp : c = ' ' := hsp c (by simp) hc
      have htail : collapseAux true cs = collapseAux false cs := by
        cases cs with
        | nil => rfl
        | cons d ds =>
          have hrel := (List.chain'_cons'.mp hchain).1 d (by simp)
          have hd : isSpaceB d = false := by
            by_contra hcon
            exact hrel ⟨hc, by simpa using hcon⟩
          unfold collapseAux
          rw [if_neg (by simp [hd]), if_neg (by simp [hd])]
      rw [htail, ih hchain.tail (fun x hx h => hsp x (by simp [hx]) h), hcsp]
      simp
    · rw [if_neg hc]
      rw [ih hchain.tail (fun x hx h => hsp x (by simp [hx]) h)]

theorem chain'_stripList {R : Char → Char → Prop} {v : List Char}
    (h : v.Chain' R) : (stripList v).Chain' R := by
  have hv : v = v.takeWhile isSpaceB ++ v.dropWhile isSpaceB :=
    (List.takeWhile_append_dropWhile _ _).symm
  have hd1 : v.dropWhile isSpaceB =
      stripList v ++ ((v.dropWhile isSpaceB).reverse.takeWhile isSpaceB).reverse := by
    unfold stripList
    have hx : (v.dropWhile isSpaceB).reverse =
        (v.dropWhile isSpaceB).reverse.takeWhile isSpaceB ++
          (v.dropWhile isSpaceB).reverse.dropWhile isSpaceB :=
      (List.takeWhile_append_dropWhile _ _).symm
    calc v.dropWhile isSpaceB
        = (v.dropWhile isSpaceB).reverse.reverse := by rw [List.reverse_reverse]
      _ = ((v.dropWhile isSpaceB).reverse.takeWhile isSpaceB ++
            (v.dropWhile isSpaceB).reverse.dropWhile isSpaceB).reverse := by rw [← hx]
      _ = ((v.dropWhile isSpaceB).reverse.dropWhile isSpaceB).reverse ++
            ((v.dropWhile isSpaceB).reverse.takeWhile isSpaceB).reverse := by
          rw [List.reverse_append]
  have h1 : (v.dropWhile isSpaceB).Chain' R := by
    rw [hv] at h
    exact (List.chain'_append.mp h).2.1
  rw [hd1] at h1
  exact (List.chain'_append.mp h1).1

theorem clean_text_chars {s : List Char} :
    ∀ c ∈ clean_text s, keepB c = true := by
  intro c hc
  unfold clean_text at hc
  have h1 := mem_of_mem_stripList hc
  exact (List.mem_filter.mp h1).2

theorem keepB_space : keepB ' ' = true := rfl

theorem filter_keepB_collapse {u : List Char} (hu : ∀ c ∈ u, keepB c = true) :
    removeSpecial (collapseWS u) = collapseWS u := by
  unfold removeSpecial
  apply List.filter_eq_self.mpr
  intro c hc
  rcases mem_collapseAux u false hc with h1 | h2
  · rw [h1]
    rfl
  · exact hu c h2.1

/-- Claim C10 counterexample: `clean_text` collapses whitespace before
removing special characters, so `"a @ b"` becomes `"a  b"` — the output
contains a two-space whitespace run and a second application changes it,
refuting both idempotence and the no-whitespace-run property. -/
theorem claim_C10_counterexample :
    clean_text ("a @ b".toList) = ('a' :: ' ' :: ' ' :: 'b' :: []) ∧
    clean_text (clean_text ("a @ b".toList)) ≠ clean_text ("a @ b".toList) := by
  refine ⟨by decide, by decide⟩

/-- Claim C10 amended: every character of `clean_text`'s output is a word
character, a space, or one of `. , ! ? -` (in particular the only whitespace
character is the plain space, though runs of spaces can remain); the output
has no leading or trailing whitespace; and while `clean_text` is not
idempotent, it is from the second application on:
`clean_text (clean_text (clean_text s)) = clean_text (clean_text s)`. -/
theorem claim_C10_amended (s : List Char) :
    (∀ c ∈ clean_text s,
      (isWordB c || c = ' ' || c = '.' || c = ',' || c = '!' || c = '?' || c = '-') = true) ∧
    stripList (clean_text s) = clean_text s ∧
    clean_text (clean_text (clean_text s)) = clean_text (clean_text s) := by
  refine ⟨?_, ?_, ?_⟩
  · intro c hc
    have hkeep := clean_text_chars c hc
    have hmem : c ∈ removeSpecial (collapseWS s) := by
      unfold clean_text at hc
      exact mem_of_mem_stripList hc
    have hcol : c ∈ collapseWS s := List.mem_of_mem_filter hmem
    rcases mem_collapseAux s false hcol with h1 | h2
    · simp [h1]
    · have hns := h2.2
      unfold keepB at hkeep
      rw [hns] at hkeep
      simp only [Bool.or_eq_true, decide_eq_true_eq] at hkeep ⊢
      tauto
  · show stripList (clean_text s) = clean_text s
    unfold clean_text
    exact stripList_idem _
  · set u := clean_text s with hu
    have huchars : ∀ c ∈ u, keepB c = true := clean_text_chars
    have hw : clean_text u = stripList (collapseWS u) := by
      unfold clean_text
      rw [filter_keepB_collapse huchars]
    set w := clean_text u with hwdef
    have hwchars : ∀ c ∈ w, keepB c = true := clean_text_chars
    have hwchain : w.Chain' (fun a d => ¬(isSpaceB a = true ∧ isSpaceB d = true)) := by
      rw [hw]
      exact chain'_stripList (collapseAux_chain u false)
    have hwsp : ∀ c ∈ w, isSpaceB c = true → c = ' ' := by
      intro c hc hspc
      have hmem : c ∈ collapseWS u := by
        rw [hw] at hc
        exact mem_of_mem_stripList hc
      rcases mem_collapseAux u false hmem with h1 | h2
      · exact h1
      · rw [h2.2] at hspc
        exact absurd hspc (by simp)
    show clean_text w = w
    unfold clean_text
    rw [filter_keepB_collapse hwchars, collapseWS_eq_self hwchain hwsp]
    have : stripList w = w := by
      rw [hwdef]
      unfold clean_text
      exact stripList_idem _
    exact this

/-- Witness for claim C10 at the input `"a @ b"` and its character `'a'`. -/
theorem claim_C10_witness :
    ('a' ∈ clean_text ("a @ b".toList)) ∧
    (isWordB 'a' || 'a' = ' ' || 'a' = '.' || 'a' = ',' || 'a' = '!' || 'a' = '?' ||
      'a' = '-') = true ∧
    stripList (clean_text ("a @ b".toList)) = clean_text ("a @ b".toList) ∧
    clean_text (clean_text (clean_text ("a @ b".toList))) =
      clean_text (clean_text ("a @ b".toList)) :=
  ⟨by decide,
    (claim_C10_amended ("a @ b".toList)).1 'a' (by decide),
    (claim_C10_amended ("a @ b".toList)).2.1,
    (claim_C10_amended ("a @ b".toList)).2.2⟩

/-! ## The segmenter refinement: `split_sentences (clean_text s)` equals the
specification's pipeline `segmentSpec s` (which omits the final whole-text
strip of `clean_text` and merges the two fragment filters). -/

theorem space_not_split {c : Char} (h : isSpaceB c = true) : isSplitB c = false := by
  simp only [isSpaceB, Bool.or_eq_true, decide_eq_true_eq] at h
  rcases h with (((((h | h) | h) | h) | h) | h) <;> subst h <;> rfl

theorem sat_of_dropWhile_eq_nil {p : Char → Bool} :
    ∀ {l : List Char}, l.dropWhile p = [] → ∀ c ∈ l, p c = true := by
  intro l
  induction l with
  | nil => intro _ c hc; simp at hc
  | cons d ds ih =>
    intro h c hc
    by_cases hd : p d = true
    · rw [List.dropWhile_cons, if_pos hd] at h
      rcases List.mem_cons.mp hc with h1 | h2
      · subst h1; exact hd
      · exact ih h c h2
    · rw [List.dropWhile_cons, if_neg hd] at h
      simp at h

theorem dropWhile_eq_self_of_all_neg {p : Char → Bool} {l : List Char}
    (h : ∀ c ∈ l, p c = false) : l.dropWhile p = l := by
  cases l with
  | nil => rfl
  | cons c cs => exact dropWhile_eq_self_of_head (h c (by simp))

theorem stripList_all_space {l : List Char} (h : ∀ c ∈ l, isSpaceB c = true) :
    stripList l = [] := by
  unfold stripList
  rw [dropWhile_eq_nil_of_sat h]
  rfl

theorem mapStrip_splitRuns_cons_space {c : Char} (hc : isSpaceB c = true)
    (x : List Char) :
    (splitRuns (c :: x)).map stripList = (splitRuns x).map stripList := by
  have hcs : (fun y => !(isSplitB y)) c = true := by
    simp [space_not_split hc]
  have hdrop : (c :: x).dropWhile (fun y => !(isSplitB y)) =
      x.dropWhile (fun y => !(isSplitB y)) := by
    simp only [List.dropWhile_cons, hcs, if_true]
  have htake : (c :: x).takeWhile (fun y => !(isSplitB y)) =
      c :: x.takeWhile (fun y => !(isSplitB y)) := by
    simp only [List.takeWhile_cons, hcs, if_true]
  have hsing : ∀ y : List Char, stripList (c :: y) = stripList y := by
    intro y
    exact @stripList_prepend_space [c] y
      (by intro z hz; simp at hz; subst hz; exact hc)
  cases hd : x.dropWhile (fun y => !(isSplitB y)) with
  | nil =>
    rw [splitRuns_eq_single (hdrop.trans hd), splitRuns_eq_single hd, htake]
    simp only [List.map_cons, List.map_nil]
    rw [hsing]
  | cons d ds =>
    rw [splitRuns_eq_cons (hdrop.trans hd), splitRuns_eq_cons hd, htake]
    simp only [List.map_cons]
    rw [hsing]

theorem mapStrip_splitRuns_prepend_space {lw : List Char} (v : List Char)
    (h : ∀ c ∈ lw, isSpaceB c = true) :
    (splitRuns (lw ++ v)).map stripList = (splitRuns v).map stripList := by
  induction lw with
  | nil => rfl
  | cons c cw ih =>
    rw [List.cons_append,
      mapStrip_splitRuns_cons_space (h c (by simp)) (cw ++ v)]
    exact ih (fun z hz => h z (by simp [hz]))

theorem mapStrip_splitRuns_append_space_aux : ∀ (n : Nat) (v tw : List Char),
    v.length ≤ n → (∀ c ∈ tw, isSpaceB c = true) →
    (splitRuns (v ++ tw)).map stripList = (splitRuns v).map stripList := by
  intro n
  induction n with
  | zero =>
    intro v tw hv htw
    have hvnil : v = [] := List.length_eq_zero.mp (Nat.le_zero.mp hv)
    subst hvnil
    simp only [List.nil_append]
    have hsat : ∀ c ∈ tw, (fun y => !(isSplitB y)) c = true := by
      intro c hc
      simp [space_not_split (htw c hc)]
    rw [splitRuns_eq_single (dropWhile_eq_nil_of_sat hsat), splitRuns_nil,
      takeWhile_eq_self_of_sat hsat]
    simp only [List.map_cons, List.map_nil]
    rw [stripList_all_space htw]
    rfl
  | succ n ih =>
    intro v tw hv htw
    have hsatTw : ∀ c ∈ tw, (fun y => !(isSplitB y)) c = true := by
      intro c hc
      simp [space_not_split (htw c hc)]
    cases hd : v.dropWhile (fun y => !(isSplitB y)) with
    | nil =>
      have hvsat : ∀ c ∈ v, (fun y => !(isSplitB y)) c = true :=
        sat_of_dropWhile_eq_nil hd
      have hdall : (v ++ tw).dropWhile (fun y => !(isSplitB y)) = [] := by
        rw [dropWhile_append_sat tw hvsat]
        exact dropWhile_eq_nil_of_sat hsatTw
      rw [splitRuns_eq_single hdall, splitRuns_eq_single hd,
        takeWhile_append_sat tw hvsat, takeWhile_eq_self_of_sat hsatTw,
        takeWhile_eq_self_of_sat hvsat]
      simp only [List.map_cons, List.map_nil]
      rw [stripList_append_space v htw]
    | cons d ds =>
      have hdapp : (v ++ tw).dropWhile (fun y => !(isSplitB y)) = d :: (ds ++ tw) :=
        dropWhile_append_of_cons tw hd
      have htapp : (v ++ tw).takeWhile (fun y => !(isSplitB y)) =
          v.takeWhile (fun y => !(isSplitB y)) :=
        takeWhile_append_of_cons tw hd
      rw [splitRuns_eq_cons hdapp, splitRuns_eq_cons hd, htapp]
      simp only [List.map_cons]
      congr 1
      have hlen1 : (d :: ds).length ≤ v.length :=
        hd ▸ (List.dropWhile_sublist _).length_le
      simp only [List.length_cons] at hlen1
      cases hds : ds.dropWhile isSplitB with
      | nil =>
        have hdssat : ∀ c ∈ ds, isSplitB c = true := sat_of_dropWhile_eq_nil hds
        have h1 : (ds ++ tw).dropWhile isSplitB = tw := by
          rw [dropWhile_append_sat tw hdssat]
          exact dropWhile_eq_self_of_all_neg (fun c hc => space_not_split (htw c hc))
        rw [h1]
        rw [splitRuns_eq_single (dropWhile_eq_nil_of_sat hsatTw), splitRuns_nil,
          takeWhile_eq_self_of_sat hsatTw]
        simp only [List.map_cons, List.map_nil]
        rw [stripList_all_space htw]
        rfl
      | cons e es =>
        have h1 : (ds ++ tw).dropWhile isSplitB = (e :: es) ++ tw :=
          dropWhile_append_of_cons tw hds
        rw [h1]
        have hlen2 : (e :: es).length ≤ ds.length :=
          hds ▸ (List.dropWhile_sublist _).length_le
        exact ih (e :: es) tw (by omega) htw

theorem dropWhile_eq_strip_append (v : List Char) :
    v.dropWhile isSpaceB =
      stripList v ++ ((v.dropWhile isSpaceB).reverse.takeWhile isSpaceB).reverse := by
  unfold stripList
  have hx : (v.dropWhile isSpaceB).reverse =
      (v.dropWhile isSpaceB).reverse.takeWhile isSpaceB ++
        (v.dropWhile isSpaceB).reverse.dropWhile isSpaceB :=
    (List.takeWhile_append_dropWhile _ _).symm
  calc v.dropWhile isSpaceB
      = (v.dropWhile isSpaceB).reverse.reverse := by rw [List.reverse_reverse]
    _ = ((v.dropWhile isSpaceB).reverse.takeWhile isSpaceB ++
          (v.dropWhile isSpaceB).reverse.dropWhile isSpaceB).reverse := by rw [← hx]
    _ = ((v.dropWhile isSpaceB).reverse.dropWhile isSpaceB).reverse ++
          ((v.dropWhile isSpaceB).reverse.takeWhile isSpaceB).reverse := by
        rw [List.reverse_append]

theorem mapStrip_splitRuns_stripList (u : List Char) :
    (splitRuns (stripList u)).map stripList = (splitRuns u).map stripList := by
  have hlw : ∀ c ∈ u.takeWhile isSpaceB, isSpaceB c = true :=
    fun c hc => List.mem_takeWhile_imp hc
  have htw : ∀ c ∈ ((u.dropWhile isSpaceB).reverse.takeWhile isSpaceB).reverse,
      isSpaceB c = true := by
    intro c hc
    rw [List.mem_reverse] at hc
    exact List.mem_takeWhile_imp hc
  calc (splitRuns (stripList u)).map stripList
      = (splitRuns (stripList u ++
          ((u.dropWhile isSpaceB).reverse.takeWhile isSpaceB).reverse)).map stripList :=
        (mapStrip_splitRuns_append_space_aux (stripList u).length _ _ (le_refl _) htw).symm
    _ = (splitRuns (u.dropWhile isSpaceB)).map stripList := by
        rw [← dropWhile_eq_strip_append u]
    _ = (splitRuns (u.takeWhile isSpaceB ++ u.dropWhile isSpaceB)).map stripList :=
        (mapStrip_splitRuns_prepend_space _ hlw).symm
    _ = (splitRuns u).map stripList := by rw [List.takeWhile_append_dropWhile]

/-- Claim C6: the composition `split_sentences ∘ clean_text` equals the
specified segmenter `segmentSpec` (collapse whitespace runs; remove characters
outside word characters, whitespace and `. , ! ? -`; split on runs of `. ! ?`;
trim each fragment; drop fragments with fewer than 3 tokens, preserving
order); every returned sentence has at least 3 whitespace-delimited tokens,
and the input `"Hi there."` yields the empty sentence list. -/
theorem claim_C6 (s : List Char) :
    segmentSpec s = split_sentences (clean_text s) ∧
    (∀ x ∈ split_sentences (clean_text s), 3 ≤ (pySplit x).length) ∧
    split_sentences (clean_text ("Hi there.".toList)) = [] := by
  have hkey : ∀ u : List Char,
      split_sentences (stripList u) =
        ((splitRuns u).map stripList).filter (fun f => 3 ≤ (pySplit f).length) := by
    intro u
    unfold split_sentences
    rw [mapStrip_splitRuns_stripList u]
    rw [List.filter_filter]
    apply List.filter_congr
    intro a _
    cases a with
    | nil =>
      rw [pySplit_nil]
      rfl
    | cons c cs => simp
  refine ⟨?_, ?_, by decide⟩
  · unfold segmentSpec clean_text
    rw [hkey (removeSpecial (collapseWS s))]
  · intro x hx
    unfold split_sentences at hx
    have h2 := (List.mem_filter.mp hx).2
    simpa using h2

/-- Witness for claim C6: the sentence `"one two three"` produced from a
concrete input has at least 3 tokens. -/
theorem claim_C6_witness :
    ("one two three".toList) ∈
      split_sentences (clean_text ("one two three. four five six.".toList)) ∧
    3 ≤ (pySplit ("one two three".toList)).length :=
  ⟨by decide,
    (claim_C6 ("one two three. four five six.".toList)).2.1
      ("one two three".toList) (by decide)⟩

end SilentSlides
